import Mathlib

/-!
Verification of the CalDAV client core (sync engine, windowed range query
engine, ICS metadata extractor) of yinjun1991/caldav-client-go.

The Go code of `caldav/client.go` and `caldav/helpers.go` is shallowly
embedded below.  Strings are modelled as `List Char` (the payloads are
ASCII text; Go's Unicode-aware `ToUpper` / `EqualFold` are modelled by
their ASCII restriction, which is what the scanned keywords use).
`time.Time` values are modelled as `Int`: the number of seconds relative to
Go's zero time (January 1, year 1, 00:00:00 UTC), so `t.IsZero()` becomes
`t = 0` and `a.Before(b)` becomes `a < b`; `UTC()` does not change the
instant and is the identity.  `time.Duration` values are nanoseconds, also
`Int`.  Network round trips are abstracted as oracle functions passed in as
parameters; errors are modelled by the inductive `CalErr` (the code only
ever branches on "is it an HTTP error" and on the status code).
`bufio.Scanner` is modelled without its 64KiB maximum token size.
-/

instance {ε α : Type} [DecidableEq ε] [DecidableEq α] : DecidableEq (Except ε α) := fun x y =>
  match x, y with
  | .ok a, .ok b =>
    if h : a = b then isTrue (by rw [h]) else isFalse (by intro hc; cases hc; exact h rfl)
  | .ok _, .error _ => isFalse (by intro hc; cases hc)
  | .error _, .ok _ => isFalse (by intro hc; cases hc)
  | .error e, .error f =>
    if h : e = f then isTrue (by rw [h]) else isFalse (by intro hc; cases hc; exact h rfl)

/-- Characters Go's `unicode.IsSpace` accepts in the ASCII range:
space, tab, newline, vertical tab, form feed, carriage return. -/
def isGoSpace (c : Char) : Bool :=
  c = ' ' || c = '\t' || c = '\n' || c = Char.ofNat 11 || c = Char.ofNat 12 || c = '\r'

/-- Drop leading characters matching `p` (Go `strings.TrimLeft`). -/
def trimLeading (p : Char → Bool) (s : List Char) : List Char :=
  s.dropWhile p

/-- Drop trailing characters matching `p` (Go `strings.TrimRight`). -/
def trimTrailing (p : Char → Bool) (s : List Char) : List Char :=
  (s.reverse.dropWhile p).reverse

/-- Go `strings.TrimSpace` (ASCII restriction). -/
def trimSpaceGo (s : List Char) : List Char :=
  trimTrailing isGoSpace (trimLeading isGoSpace s)

/-- ASCII upper-casing of one character (`unicode.ToUpper` restricted to ASCII). -/
def asciiUpperChar (c : Char) : Char :=
  if 'a' ≤ c ∧ c ≤ 'z' then Char.ofNat (c.toNat - 32) else c

/-- Go `strings.ToUpper` (ASCII restriction). -/
def upperStr (s : List Char) : List Char :=
  s.map asciiUpperChar

/-- Go `strings.EqualFold` (ASCII restriction). -/
def eqFold (a b : List Char) : Bool :=
  upperStr a == upperStr b

/-- Go `strings.HasPrefix pat s` test, by character. -/
def hasPre : List Char → List Char → Bool
  | [], _ => true
  | _ :: _, [] => false
  | p :: ps, c :: cs => p == c && hasPre ps cs

/-- Index of the first occurrence of `c` (Go `strings.Index` for a
one-character separator), `none` when absent. -/
def idxOfCh (c : Char) : List Char → Option Nat
  | [] => none
  | x :: xs => if x = c then some 0 else (idxOfCh c xs).map (· + 1)

/-- Index of the last occurrence of `c` (Go `strings.LastIndex` for a
one-character separator), `none` when absent. -/
def lastIdxOfCh (c : Char) (s : List Char) : Option Nat :=
  (idxOfCh c s.reverse).map (fun i => s.length - 1 - i)

/-- Go `strings.Split s sep` for a one-character separator: splitting the
empty string yields one empty field, every separator starts a new field. -/
def splitOnChAux (sep : Char) (cur : List Char) : List Char → List (List Char)
  | [] => [cur.reverse]
  | c :: rest =>
    if c = sep then cur.reverse :: splitOnChAux sep [] rest
    else splitOnChAux sep (c :: cur) rest

def splitOnCh (sep : Char) (s : List Char) : List (List Char) :=
  splitOnChAux sep [] s

/-- Convenience: the character list of a string literal. -/
def goStr (s : String) : List Char :=
  s.toList

/-- Go `strconv.Atoi` success predicate: an optional sign followed by at
least one digit (64-bit overflow is not modelled; nothing verified below
depends on the `COUNT` branch it guards). -/
def atoiOk (s : List Char) : Bool :=
  match s with
  | [] => false
  | '+' :: rest => !rest.isEmpty && rest.all Char.isDigit
  | '-' :: rest => !rest.isEmpty && rest.all Char.isDigit
  | _ => s.all Char.isDigit

/-- Numeric value of a digit string. -/
def natOfDigits (s : List Char) : Int :=
  s.foldl (fun acc c => acc * 10 + ((c.toNat : Int) - 48)) 0

/-- Gregorian leap-year rule, as validated by Go `time.Parse`. -/
def isLeapYear (y : Int) : Bool :=
  y % 4 = 0 && (y % 100 ≠ 0 || y % 400 = 0)

/-- Days in a month, as validated by Go `time.Parse`. -/
def daysInMonth (y m : Int) : Int :=
  if m = 1 ∨ m = 3 ∨ m = 5 ∨ m = 7 ∨ m = 8 ∨ m = 10 ∨ m = 12 then 31
  else if m = 4 ∨ m = 6 ∨ m = 9 ∨ m = 11 then 30
  else if isLeapYear y then 29 else 28

/-- Days since 1970-01-01 of a civil date (proleptic Gregorian calendar,
the arithmetic Go's `time` package implements). -/
def daysFromCivil (y m d : Int) : Int :=
  let y1 := if m ≤ 2 then y - 1 else y
  let era := (if 0 ≤ y1 then y1 else y1 - 399) / 400
  let yoe := y1 - era * 400
  let mp := if 2 < m then m - 3 else m + 9
  let doy := (153 * mp + 2) / 5 + d - 1
  let doe := yoe * 365 + yoe / 4 - yoe / 100 + doy
  era * 146097 + doe - 719468

/-- The model of a `time.Time` instant: seconds relative to Go's zero time
0001-01-01T00:00:00 UTC (719162 days before the Unix epoch), so that
`IsZero` is `= 0`. -/
def goTimeOf (y m d h mi s : Int) : Int :=
  (daysFromCivil y m d + 719162) * 86400 + h * 3600 + mi * 60 + s

/-- Parse exactly eight digits `YYYYMMDD` with Go's range validation. -/
def parseDate8 (s : List Char) : Option (Int × Int × Int) :=
  if s.length = 8 ∧ s.all Char.isDigit then
    let y := natOfDigits (s.take 4)
    let m := natOfDigits ((s.drop 4).take 2)
    let d := natOfDigits ((s.drop 6).take 2)
    if 1 ≤ m ∧ m ≤ 12 ∧ 1 ≤ d ∧ d ≤ daysInMonth y m then some (y, m, d) else none
  else none

/-- Parse exactly six digits `HHMMSS` with Go's range validation. -/
def parseTime6 (s : List Char) : Option (Int × Int × Int) :=
  if s.length = 6 ∧ s.all Char.isDigit then
    let h := natOfDigits (s.take 2)
    let mi := natOfDigits ((s.drop 2).take 2)
    let sec := natOfDigits ((s.drop 4).take 2)
    if h ≤ 23 ∧ mi ≤ 59 ∧ sec ≤ 59 then some (h, mi, sec) else none
  else none

/-- Go `time.Parse` with layout `20060102T150405` (floating local time,
which `time.Parse` places in UTC). -/
def parseLayoutFull (s : List Char) : Option Int :=
  if s.length = 15 ∧ s.get? 8 = some 'T' then
    match parseDate8 (s.take 8), parseTime6 (s.drop 9) with
    | some (y, m, d), some (h, mi, sec) => some (goTimeOf y m d h mi sec)
    | _, _ => none
  else none

/-- Go `time.Parse` with layout `20060102T150405Z`. -/
def parseLayoutFullZ (s : List Char) : Option Int :=
  if s.length = 16 ∧ s.getLast? = some 'Z' then parseLayoutFull (s.take 15) else none

/-- Go `time.Parse` with layout `20060102`. -/
def parseDateOnly (s : List Char) : Option Int :=
  match parseDate8 s with
  | some (y, m, d) => some (goTimeOf y m d 0 0 0)
  | none => none

/-- `parseICSTime` of client.go: trim, then try the three layouts in order,
skipping the `Z` layout when the value does not end in `Z` and the
floating layout when it does. -/
def parseICSTime (v : List Char) : Option Int :=
  let s := trimSpaceGo v
  let endsZ := s.getLast? = some 'Z'
  match (if endsZ then parseLayoutFullZ s else none) with
  | some t => some t
  | none =>
    match (if ¬ endsZ then parseLayoutFull s else none) with
    | some t => some t
    | none => parseDateOnly s

/-- Drop one trailing carriage return (`dropCR` of `bufio.ScanLines`). -/
def dropCR (s : List Char) : List Char :=
  if s.getLast? = some '\r' then s.dropLast else s

/-- `bufio.Scanner` with `ScanLines`: split on newline, dropping one
carriage return before each newline and at end of data; a trailing newline
produces no final empty token, empty input produces no tokens. -/
def scanLinesAux (cur : List Char) : List Char → List (List Char)
  | [] => if cur.isEmpty then [] else [dropCR cur.reverse]
  | c :: rest =>
    if c = '\n' then dropCR cur.reverse :: scanLinesAux [] rest
    else scanLinesAux (c :: cur) rest

def scanLines (s : List Char) : List (List Char) :=
  scanLinesAux [] s

/-- Go `strings.ReplaceAll s "\r\n" "\n"` (left-to-right, non-overlapping). -/
def normalizeCRLF : List Char → List Char
  | [] => []
  | '\r' :: '\n' :: rest => '\n' :: normalizeCRLF rest
  | c :: rest => c :: normalizeCRLF rest

/-- The loop body of `unfoldICSLines`: a physical line starting with a
space or tab continues the current logical line with all its leading
spaces/tabs removed; otherwise the current logical line (if non-empty) is
emitted and the physical line starts a new one. -/
def unfoldLoop (acc : List (List Char)) (current : List Char) :
    List (List Char) → List (List Char)
  | [] => if current = [] then acc else acc ++ [current]
  | raw :: rest =>
    let line := trimTrailing (fun c => c = '\r') raw
    if hasPre [' '] line || hasPre ['\t'] line then
      unfoldLoop acc (current ++ line.dropWhile (fun c => c = ' ' || c = '\t')) rest
    else if current ≠ [] then unfoldLoop (acc ++ [current]) line rest
    else unfoldLoop acc line rest

/-- `unfoldICSLines` of client.go (the scanner cannot fail in the model,
so the `error` result is dropped). -/
def unfoldICSLines (data : List Char) : List (List Char) :=
  unfoldLoop [] [] (scanLines data)

/-- `extractICSValue` of client.go: everything after the first colon,
trimmed, provided the colon is not the final character. -/
def extractICSValue (line : List Char) : List Char :=
  match idxOfCh ':' line with
  | some i => if i + 1 < line.length then trimSpaceGo (line.drop (i + 1)) else []
  | none => []

/-- The `eventMetadata` struct of client.go (`end` is a Lean keyword, the
field is called `endT`). -/
structure EventMetadata where
  start : Int := 0
  endT : Int := 0
  recurring : Bool := false
  recurrenceEnd : Int := 0
  recurrenceOpen : Bool := false
deriving DecidableEq, Repr

def initMeta : EventMetadata := {}

def kwDTSTART : List Char := ['D', 'T', 'S', 'T', 'A', 'R', 'T']
def kwDTEND : List Char := ['D', 'T', 'E', 'N', 'D']
def kwRRULE : List Char := ['R', 'R', 'U', 'L', 'E']
def kwBeginVevent : List Char := goStr "BEGIN:VEVENT"
def kwEndVevent : List Char := goStr "END:VEVENT"
def kwUNTIL : List Char := ['U', 'N', 'T', 'I', 'L']
def kwCOUNT : List Char := ['C', 'O', 'U', 'N', 'T']

/-- One `KEY=VALUE` component of an `RRULE` value (`strings.SplitN _ "=" 2`;
components without `=` are skipped): `UNTIL` sets a bounded recurrence end
when its value parses, `COUNT` clears open-endedness when its value is an
integer. -/
def applyRRulePart (m : EventMetadata) (part : List Char) : EventMetadata :=
  match idxOfCh '=' part with
  | none => m
  | some i =>
    let key := upperStr (trimSpaceGo (part.take i))
    let val := trimSpaceGo (part.drop (i + 1))
    if key = kwUNTIL then
      match parseICSTime val with
      | some t => { m with recurrenceEnd := t, recurrenceOpen := false }
      | none => m
    else if key = kwCOUNT then
      if atoiOk val then { m with recurrenceOpen := false } else m
    else m

/-- State of the line scan of `extractEventMetadata`. -/
structure ExtractState where
  inEvent : Bool
  meta : EventMetadata
deriving DecidableEq

/-- One logical line of the scan of `extractEventMetadata`: toggle the
VEVENT flag on the (case-insensitive) marker lines; inside a VEVENT block
handle `DTSTART` / `DTEND` / `RRULE` property lines, in that order, a
parse-format mismatch leaving the field unchanged. -/
def extractStep (st : ExtractState) (line : List Char) : ExtractState :=
  if eqFold line kwBeginVevent then { st with inEvent := true }
  else if eqFold line kwEndVevent then { st with inEvent := false }
  else if !st.inEvent then st
  else
    let upper := upperStr line
    if hasPre kwDTSTART upper then
      let value := extractICSValue line
      if value = [] then st
      else
        match parseICSTime value with
        | some t => { st with meta := { st.meta with start := t } }
        | none => st
    else if hasPre kwDTEND upper then
      let value := extractICSValue line
      if value = [] then st
      else
        match parseICSTime value with
        | some t => { st with meta := { st.meta with endT := t } }
        | none => st
    else if hasPre kwRRULE upper then
      let value := extractICSValue line
      if value = [] then st
      else
        let m0 := { st.meta with recurring := true, recurrenceOpen := true }
        { st with meta := (splitOnCh ';' value).foldl applyRRulePart m0 }
    else st

/-- `extractEventMetadata` of client.go.  The error payload is dropped
(`Except Unit`): the code only ever branches on success. -/
def extractEventMetadata (data : List Char) : Except Unit EventMetadata :=
  if data = [] then .error ()
  else
    let lines := unfoldICSLines (normalizeCRLF data)
    let st := lines.foldl extractStep ⟨false, initMeta⟩
    if st.meta.recurring then .ok st.meta
    else if st.meta.start = 0 ∧ st.meta.endT = 0 then .error ()
    else .ok st.meta

/-- Bool view of extraction success, for concrete evaluation. -/
def extractSucceeds (data : List Char) : Bool :=
  match extractEventMetadata data with
  | .ok _ => true
  | .error _ => false

/-- The `CalendarObject` struct of caldav.go (`Data` as text). -/
structure CalendarObject where
  path : List Char
  modTime : Int
  contentLength : Int
  etag : List Char
  data : List Char
deriving DecidableEq, Repr

/-- `shouldIncludeForStartCutoff` of client.go (for a non-nil object):
decide from extracted metadata when extraction succeeds, else fall back to
the modification time, else include.  `!t.Before(cutoff)` is `¬ t < cutoff`. -/
def shouldIncludeForStartCutoff (co : CalendarObject) (cutoff : Int) : Bool :=
  match extractEventMetadata co.data with
  | .ok meta =>
    if meta.recurring then
      if meta.recurrenceEnd = 0 then true
      else if ¬ meta.recurrenceEnd < cutoff then true
      else false
    else if meta.endT ≠ 0 then
      if ¬ meta.endT < cutoff then true else false
    else if meta.start ≠ 0 then decide (¬ meta.start < cutoff)
    else if co.modTime ≠ 0 then decide (¬ co.modTime < cutoff)
    else true
  | .error _ =>
    if co.modTime ≠ 0 then decide (¬ co.modTime < cutoff)
    else true

/-- The inclusion decision as worded by the claim (C1), as a function of
the extraction outcome and the object's modification time.  The claim does
not speak about a successful extraction of a non-recurring event with
neither start nor end; that case is unreachable (see
`extract_ok_not_recurring`) and is set to `true` here. -/
def includeDecisionSpec (r : Except Unit EventMetadata) (modTime cutoff : Int) : Bool :=
  match r with
  | .ok m =>
    if m.recurring then
      if m.recurrenceEnd = 0 then true
      else decide (¬ m.recurrenceEnd < cutoff)
    else if m.endT ≠ 0 then decide (¬ m.endT < cutoff)
    else if m.start ≠ 0 then decide (¬ m.start < cutoff)
    else true
  | .error _ =>
    if modTime ≠ 0 then decide (¬ modTime < cutoff)
    else true

/-- Errors the modelled operations surface.  `http` is
`*internal.HTTPError` with its status code; the two `invalid` variants are
the input-validation errors of `CalendarQueryRange`; `generic` stands for
any other transport or decode error value. -/
inductive CalErr where
  | http : Int → CalErr
  | invalidOpen : CalErr
  | invalidOrder : CalErr
  | generic : CalErr
deriving DecidableEq, Repr

/-- The two input-validation errors of `CalendarQueryRange`. -/
def CalErr.isInputValidation : CalErr → Bool
  | .invalidOpen => true
  | .invalidOrder => true
  | _ => false

/-- `http.StatusInsufficientStorage`. -/
def statusInsufficientStorage : Int := 507

/-- `defaultCalendarRangeWindow = 90 * 24 * time.Hour`, in nanoseconds. -/
def defaultCalendarRangeWindow : Int := 90 * 24 * 3600000000000

/-- `minCalendarRangeWindow = 24 * time.Hour`, in nanoseconds. -/
def minCalendarRangeWindow : Int := 24 * 3600000000000

/-- A query oracle: the outcome of `calendarQueryRangeOnce` (one
calendar-query REPORT round trip) for given window bounds. -/
def QueryOracle : Type :=
  Int → Int → Except CalErr (List CalendarObject)

/-- `calendarQueryRangeRecursive` of client.go: try the window once; on an
HTTP error, give up below the minimum width or on a status other than 507,
otherwise bisect at the midpoint (Go divides the `time.Duration`, a 64-bit
integer, with truncation: `Int.tdiv`) and glue the two halves. -/
def calendarQueryRangeRecursive (q : QueryOracle) (s e : Int) :
    Except CalErr (List CalendarObject) :=
  match q s e with
  | .ok objs => .ok objs
  | .error err =>
    match err with
    | .http code =>
      if e - s ≤ minCalendarRangeWindow then .error (.http code)
      else if code ≠ statusInsufficientStorage then .error (.http code)
      else if hmid : s < s + (e - s).tdiv 2 then
        match calendarQueryRangeRecursive q s (s + (e - s).tdiv 2) with
        | .error err2 => .error err2
        | .ok left =>
          match calendarQueryRangeRecursive q (s + (e - s).tdiv 2) e with
          | .error err2 => .error err2
          | .ok right => .ok (left ++ right)
      else .error (.http code)
    | _ => .error err
termination_by (e - s).toNat
decreasing_by
  all_goals
    have hmc : (0 : Int) < minCalendarRangeWindow := by norm_num [minCalendarRangeWindow]
    have h2 : (0 : Int) ≤ e - s := by omega
    have h3 : (e - s).tdiv 2 = (e - s) / 2 := Int.tdiv_eq_ediv h2 (by norm_num)
    omega

/-- The in-place merge of one result into the accumulated list, keyed by
path.  client.go keeps a `map[string]int` from path to the index of the
first insertion; since merged entries have pairwise distinct paths, that
index is the position of the unique entry with the same path, so replacing
the first (= only) match in place is the same operation. -/
def mergeStep : List CalendarObject → CalendarObject → List CalendarObject
  | [], obj => [obj]
  | x :: rest, obj =>
    if x.path = obj.path then obj :: rest else x :: mergeStep rest obj

/-- Merging a sequence of per-window chunks, as the loop of
`calendarQueryRangeWindowed` does. -/
def mergeChunks (chunks : List (List CalendarObject)) : List CalendarObject :=
  chunks.foldl (fun st c => c.foldl mergeStep st) []

/-- The loop of `calendarQueryRangeWindowed`: walk 90-day windows from the
cursor (`windowEnd := min (cursor + width) end`), query each window through
the bisecting helper, merge its chunk by path, stop after a window that
fails to advance the cursor. -/
def windowedLoop (q : QueryOracle) (cursor e : Int) (acc : List CalendarObject) :
    Except CalErr (List CalendarObject) :=
  if h : cursor < e then
    match calendarQueryRangeRecursive q cursor (min (cursor + defaultCalendarRangeWindow) e) with
    | .error err => .error err
    | .ok chunk =>
      if h2 : min (cursor + defaultCalendarRangeWindow) e ≤ cursor then
        .ok (chunk.foldl mergeStep acc)
      else windowedLoop q (min (cursor + defaultCalendarRangeWindow) e) e (chunk.foldl mergeStep acc)
  else .ok acc
termination_by (e - cursor).toNat
decreasing_by
  have hmin : min (cursor + defaultCalendarRangeWindow) e ≤ e := min_le_right _ _
  omega

/-- `calendarQueryRangeWindowed` of client.go. -/
def calendarQueryRangeWindowed (q : QueryOracle) (s e : Int) :
    Except CalErr (List CalendarObject) :=
  windowedLoop q s e []

/-- The window sequence the loop of `calendarQueryRangeWindowed` walks
(the same cursor arithmetic with the query calls abstracted away). -/
def rangeWindows (s e : Int) : List (Int × Int) :=
  if h : s < e then
    (s, min (s + defaultCalendarRangeWindow) e) ::
      (if h2 : min (s + defaultCalendarRangeWindow) e ≤ s then []
       else rangeWindows (min (s + defaultCalendarRangeWindow) e) e)
  else []
termination_by (e - s).toNat
decreasing_by
  have hmin : min (s + defaultCalendarRangeWindow) e ≤ e := min_le_right _ _
  omega

/-- Processing a window list the way the loop does: query through the
bisecting helper, merge, stop on the first failure. -/
def processWindows (q : QueryOracle) :
    List (Int × Int) → List CalendarObject → Except CalErr (List CalendarObject)
  | [], acc => .ok acc
  | w :: rest, acc =>
    match calendarQueryRangeRecursive q w.1 w.2 with
    | .error err => .error err
    | .ok chunk => processWindows q rest (chunk.foldl mergeStep acc)

/-- `CalendarQueryRange` of client.go: reject two open bounds, reject two
set bounds out of order (`UTC()` does not move the instants), window when
both bounds are set, otherwise issue the single one-sided query. -/
def CalendarQueryRange (q : QueryOracle) (s e : Int) :
    Except CalErr (List CalendarObject) :=
  if s = 0 ∧ e = 0 then .error .invalidOpen
  else if s ≠ 0 ∧ e ≠ 0 ∧ ¬ s < e then .error .invalidOrder
  else if s ≠ 0 ∧ e ≠ 0 then calendarQueryRangeWindowed q s e
  else q s e

/-- `normalizeCollectionPath` of helpers.go: the empty string and `/` map
to themselves, everything else loses all trailing slashes. -/
def normalizeCollectionPath (p : List Char) : List Char :=
  if p = [] ∨ p = ['/'] then p else trimTrailing (fun c => c = '/') p

/-- `sameCollectionPath` of helpers.go. -/
def sameCollectionPath (a b : List Char) : Bool :=
  a == b || normalizeCollectionPath a == normalizeCollectionPath b

/-- A trimmed-down `Calendar` (the sync engine only stores the decoded
value; none of its fields is inspected). -/
structure Calendar where
  path : List Char
  name : List Char
deriving DecidableEq, Repr

/-- The `SyncQuery` struct of caldav.go. -/
structure SyncQuery where
  syncToken : List Char
  limit : Int
  startTime : Int
deriving DecidableEq, Repr

/-- The `SyncResponse` struct of caldav.go. -/
structure SyncResponse where
  syncToken : List Char
  calendar : Option Calendar
  updated : List CalendarObject
  deleted : List (List Char)
deriving DecidableEq, Repr

/-- One decoded entry of a sync-collection multistatus response:
`path`/`pathErr` model `resp.Path()` (which yields the href alongside a
status error), `parsedCalendar` models `parseCalendarFromResponse` (`none`
when the resource is not a calendar collection), `objectData` models
`decodeCalendarObject resp path`. -/
structure SyncEntry where
  path : List Char
  pathErr : Option CalErr
  parsedCalendar : Except CalErr (Option Calendar)
  objectData : Except CalErr CalendarObject
deriving DecidableEq

/-- A sync-collection multistatus response (token plus entries). -/
structure SyncMultiStatus where
  syncToken : List Char
  responses : List SyncEntry
deriving DecidableEq

/-- The accumulator of the response loop of `SyncCalendar`:
`pendingPaths`/`pendingPairs` model the `pendingPaths` slice and the
`pendingObjects` map (a later insert for the same path shadows an earlier
one, which `mapLookupLast` reproduces). -/
structure SyncAccum where
  calendar : Option Calendar
  updated : List CalendarObject
  deleted : List (List Char)
  pendingPaths : List (List Char)
  pendingPairs : List (List Char × CalendarObject)
deriving DecidableEq

def initSyncAccum : SyncAccum :=
  ⟨none, [], [], [], []⟩

/-- One response of the loop of `SyncCalendar`: a 404 path becomes a
deletion, another path error aborts; the collection itself refreshes the
calendar metadata; otherwise the entry is a calendar object, filtered
against the cutoff when one is set (objects without payload are deferred
for the multiget backfill). -/
def syncProcessEntry (colPath : List Char) (cutoff : Int) (acc : SyncAccum)
    (entry : SyncEntry) : Except CalErr SyncAccum :=
  match entry.pathErr with
  | some err =>
    if err = CalErr.http 404 then .ok { acc with deleted := acc.deleted ++ [entry.path] }
    else .error err
  | none =>
    if sameCollectionPath entry.path colPath then
      match entry.parsedCalendar with
      | .error err => .error err
      | .ok (some cal) => .ok { acc with calendar := some cal }
      | .ok none => .ok acc
    else
      match entry.objectData with
      | .error err => .error err
      | .ok co =>
        if cutoff ≠ 0 then
          if co.data = [] then
            .ok { acc with pendingPaths := acc.pendingPaths ++ [entry.path],
                           pendingPairs := acc.pendingPairs ++ [(entry.path, co)] }
          else if shouldIncludeForStartCutoff co cutoff then
            .ok { acc with updated := acc.updated ++ [co] }
          else .ok acc
        else .ok { acc with updated := acc.updated ++ [co] }

/-- The response loop of `SyncCalendar`. -/
def syncFold (colPath : List Char) (cutoff : Int) :
    List SyncEntry → SyncAccum → Except CalErr SyncAccum
  | [], acc => .ok acc
  | entry :: rest, acc =>
    match syncProcessEntry colPath cutoff acc entry with
    | .error err => .error err
    | .ok acc2 => syncFold colPath cutoff rest acc2

/-- Lookup in a Go map built by inserting the listed pairs in order (a
later insert wins). -/
def mapLookupLast (prs : List (List Char × CalendarObject)) (p : List Char) :
    Option CalendarObject :=
  (prs.reverse.find? (fun pr => pr.1 == p)).map Prod.snd

/-- Adopting the backfilled payload: the fetched data always replaces, the
modification time / content length / etag only when the fetched value is
non-zero/non-empty. -/
def mergeFetched (co : CalendarObject) (fetched : Option CalendarObject) : CalendarObject :=
  match fetched with
  | none => co
  | some f =>
    { co with data := f.data,
              modTime := if f.modTime ≠ 0 then f.modTime else co.modTime,
              contentLength := if f.contentLength ≠ 0 then f.contentLength else co.contentLength,
              etag := if f.etag ≠ [] then f.etag else co.etag }

/-- A multiget oracle: the outcome of `CalendarMultiget` for the deferred
paths (with the standard component request). -/
def MultigetOracle : Type :=
  List (List Char) → Except CalErr (List CalendarObject)

/-- `SyncCalendar` of client.go for a non-nil query, with the
sync-collection response `ms` (a function of path, token and limit on the
wire) and the backfill multiget oracle passed in: the cutoff is active only
when the token is empty and the start time non-zero; after the main loop
the deferred objects are backfilled in one batch, merged by path (a later
fetched object with the same path wins, as in the `fetchedByPath` map) and
filtered with the same inclusion decision. -/
def syncCalendar (mg : MultigetOracle) (path : List Char) (ms : SyncMultiStatus)
    (query : SyncQuery) : Except CalErr SyncResponse :=
  let cutoff : Int := if query.syncToken = [] ∧ query.startTime ≠ 0 then query.startTime else 0
  match syncFold path cutoff ms.responses initSyncAccum with
  | .error err => .error err
  | .ok acc =>
    if cutoff ≠ 0 ∧ acc.pendingPaths ≠ [] then
      match mg acc.pendingPaths with
      | .error err => .error err
      | .ok fetched =>
        let upd := acc.pendingPaths.foldl (fun u p =>
          match mapLookupLast acc.pendingPairs p with
          | none => u
          | some co =>
            let co2 := mergeFetched co ((fetched.reverse.find? (fun f => f.path == p)))
            if shouldIncludeForStartCutoff co2 cutoff then u ++ [co2] else u) acc.updated
        .ok ⟨ms.syncToken, acc.calendar, upd, acc.deleted⟩
    else .ok ⟨ms.syncToken, acc.calendar, acc.updated, acc.deleted⟩

/-- Modelled from the spec: the unfiltered classification of one
sync-collection entry (section 4.3 step 2: deletions, the collection
itself, updated objects) with no cutoff filtering. -/
def classifyStep (colPath : List Char) (acc : SyncAccum) (entry : SyncEntry) :
    Except CalErr SyncAccum :=
  match entry.pathErr with
  | some err =>
    if err = CalErr.http 404 then .ok { acc with deleted := acc.deleted ++ [entry.path] }
    else .error err
  | none =>
    if sameCollectionPath entry.path colPath then
      match entry.parsedCalendar with
      | .error err => .error err
      | .ok (some cal) => .ok { acc with calendar := some cal }
      | .ok none => .ok acc
    else
      match entry.objectData with
      | .error err => .error err
      | .ok co => .ok { acc with updated := acc.updated ++ [co] }

/-- Modelled from the spec: the unfiltered classification loop. -/
def classifyFold (colPath : List Char) :
    List SyncEntry → SyncAccum → Except CalErr SyncAccum
  | [], acc => .ok acc
  | entry :: rest, acc =>
    match classifyStep colPath acc entry with
    | .error err => .error err
    | .ok acc2 => classifyFold colPath rest acc2

/-- Modelled from the spec: the unfiltered classification result of a
sync-collection response. -/
def classifySync (path : List Char) (ms : SyncMultiStatus) : Except CalErr SyncResponse :=
  match classifyFold path ms.responses initSyncAccum with
  | .error err => .error err
  | .ok acc => .ok ⟨ms.syncToken, acc.calendar, acc.updated, acc.deleted⟩

/-- One decoded entry of a multiget multistatus response. -/
structure MgEntry where
  pathR : Except CalErr (List Char)
  objectData : Except CalErr CalendarObject
deriving DecidableEq

/-- A multiget report oracle: the multistatus entries the REPORT on the
given base path with the given hrefs comes back with. -/
def ReportOracle : Type :=
  List Char → List (List Char) → Except CalErr (List MgEntry)

/-- The base-path computation of `CalendarMultiget`: the parent directory
of the first path, when its last slash is at a positive index. -/
def multigetBasePath (p : List Char) : List Char :=
  match lastIdxOfCh '/' p with
  | some i => if 0 < i then p.take (i + 1) else p
  | none => p

/-- The decode loop of `CalendarMultiget`: resolve each entry's path, then
decode the calendar object; either failure aborts. -/
def decodeMgEntries : List MgEntry → Except CalErr (List CalendarObject)
  | [] => .ok []
  | en :: rest =>
    match en.pathR with
    | .error err => .error err
    | .ok _ =>
      match en.objectData with
      | .error err => .error err
      | .ok co =>
        match decodeMgEntries rest with
        | .error err => .error err
        | .ok l => .ok (co :: l)

/-- `CalendarMultiget` of client.go: an empty path list short-circuits to
`(nil, nil)` before any request is built or issued; otherwise one REPORT
is sent to the base path and its entries are decoded. -/
def CalendarMultiget (report : ReportOracle) (paths : List (List Char)) :
    Except CalErr (List CalendarObject) :=
  if paths = [] then .ok []
  else
    match report (multigetBasePath (paths.headD [])) paths with
    | .error err => .error err
    | .ok entries => decodeMgEntries entries

/-- Folding a logical line into physical lines (claim C4): the first
segment, then for each further segment a line break plus one leading space
or horizontal tab. -/
def foldSegs : List Char → List (Char × List Char) → List Char
  | s0, [] => s0
  | s0, p :: rest => s0 ++ '\n' :: foldSegs (p.1 :: p.2) rest

/-- A segment usable as part of one logical content line: no embedded
newline and no final carriage return (the unfolder strips line-final
carriage returns). -/
def segOk (s : List Char) : Bool :=
  !(s.contains '\n') && !(s.getLast? == some '\r')

/-- The segment does not begin with a space or tab. -/
def headNotWsTab : List Char → Bool
  | [] => true
  | c :: _ => !(c = ' ' || c = '\t')

/-- Side conditions on one continuation piece: the inserted whitespace is a
single space or tab and the segment itself does not begin with more
whitespace. -/
def contOk (p : Char × List Char) : Bool :=
  (p.1 = ' ' || p.1 = '\t') && headNotWsTab p.2 && segOk p.2

/-- All trailing slashes stripped (the normalization the claim C7 words
the comparison in). -/
def trimTrailingSlashes (p : List Char) : List Char :=
  trimTrailing (fun c => c = '/') p

/-- Claim C7 as stated: equal after stripping any number of trailing
slashes, except that the empty string and `/` are never equal to one
another. -/
def c7StatedEqual (a b : List Char) : Bool :=
  trimTrailingSlashes a == trimTrailingSlashes b &&
    !((a == [] && b == ['/']) || (a == ['/'] && b == []))

/-- Claim C7 amended: equal after stripping any number of trailing
slashes, except that `/` is equal only to itself among the strings that
strip to empty. -/
def c7AmendedEqual (a b : List Char) : Bool :=
  trimTrailingSlashes a == trimTrailingSlashes b && ((a == ['/']) == (b == ['/']))

/-- The logical lines of a payload: CRLF normalization, scanning, and
unfolding, as `extractEventMetadata` performs them. -/
def logicalLines (data : List Char) : List (List Char) :=
  unfoldICSLines (normalizeCRLF data)

/-- The logical lines lying inside a VEVENT block (the same marker
handling as the scan of `extractEventMetadata`); the `inE` flag carries
whether the cursor is currently inside a block. -/
def veventSelect (inE : Bool) : List (List Char) → List (List Char)
  | [] => []
  | l :: rest =>
    if eqFold l kwBeginVevent then veventSelect true rest
    else if eqFold l kwEndVevent then veventSelect false rest
    else if inE then l :: veventSelect inE rest
    else veventSelect inE rest

/-- An `RRULE` property line with a non-empty value. -/
def isRRuleLine (l : List Char) : Bool :=
  hasPre kwRRULE (upperStr l) && !(extractICSValue l == [])

/-- A `DTSTART` (resp. `DTEND`) property line with a non-empty value. -/
def isPropLine (kw : List Char) (l : List Char) : Bool :=
  hasPre kw (upperStr l) && !(extractICSValue l == [])

/-- The last successfully parsed value of the given property over the
given lines, starting from `init` (0 = Go's zero time = no value yet): a
later successful parse overwrites an earlier one, parse failures and other
lines leave the value unchanged. -/
def lastParsedWith (kw : List Char) (lines : List (List Char)) (init : Int) : Int :=
  lines.foldl (fun acc l =>
    if isPropLine kw l then
      match parseICSTime (extractICSValue l) with
      | some t => t
      | none => acc
    else acc) init

/-- Whether some VEVENT line of the payload carries an `RRULE` with a
non-empty value (claim C8, "an RRULE is recognized"). -/
def specRecurring (data : List Char) : Bool :=
  (veventSelect false (logicalLines data)).any isRRuleLine

/-- The last successfully parsed `DTSTART` of the payload's VEVENT lines
(0 when none, or when the last one parses to the zero time). -/
def specLastStart (data : List Char) : Int :=
  lastParsedWith kwDTSTART (veventSelect false (logicalLines data)) 0

/-- The last successfully parsed `DTEND` of the payload's VEVENT lines. -/
def specLastEnd (data : List Char) : Int :=
  lastParsedWith kwDTEND (veventSelect false (logicalLines data)) 0

/-- The lines after the first `BEGIN:VEVENT` marker, `none` when there is
no such marker. -/
def afterFirstBegin : List (List Char) → Option (List (List Char))
  | [] => none
  | l :: rest => if eqFold l kwBeginVevent then some rest else afterFirstBegin rest

/-- The lines before the next `END:VEVENT` marker. -/
def upToFirstEnd : List (List Char) → List (List Char)
  | [] => []
  | l :: rest => if eqFold l kwEndVevent then [] else l :: upToFirstEnd rest

/-- The first VEVENT block of the payload (claim C8 as stated). -/
def firstVeventBlock (data : List Char) : List (List Char) :=
  match afterFirstBegin (logicalLines data) with
  | some r => upToFirstEnd r
  | none => []

/-- Claim C8's failure condition as stated: empty payload, or no RRULE
recognized inside the first VEVENT block and no parseable DTSTART / DTEND
value found there. -/
def c8StatedFailure (data : List Char) : Bool :=
  data == [] ||
    (!((firstVeventBlock data).any isRRuleLine) &&
     !((firstVeventBlock data).any fun l =>
        isPropLine kwDTSTART l && (parseICSTime (extractICSValue l)).isSome) &&
     !((firstVeventBlock data).any fun l =>
        isPropLine kwDTEND l && (parseICSTime (extractICSValue l)).isSome))

/-- Sample objects for concrete witnesses: two distinct objects sharing a
path. -/
def sampleObjA : CalendarObject :=
  ⟨goStr "/cal/a.ics", 1, 0, [], []⟩

def sampleObjB : CalendarObject :=
  ⟨goStr "/cal/a.ics", 2, 0, [], []⟩

/-- A successful extraction of a non-recurring event carries a start or an
end: the final check of `extractEventMetadata` rejects the contrary. -/
theorem extract_ok_not_recurring {data : List Char} {m : EventMetadata}
    (hex : extractEventMetadata data = .ok m) (hrec : m.recurring = false) :
    ¬ (m.start = 0 ∧ m.endT = 0) := by
  intro hz
  unfold extractEventMetadata at hex
  by_cases hd : data = []
  · simp [hd] at hex
  · simp only [hd, if_false] at hex
    set st := (unfoldICSLines (normalizeCRLF data)).foldl extractStep ⟨false, initMeta⟩ with hst
    by_cases hr : st.meta.recurring
    · simp only [hr, if_true] at hex
      cases hex
      simp [hr] at hrec
    · simp only [hr, if_false] at hex
      by_cases hz2 : st.meta.start = 0 ∧ st.meta.endT = 0
      · simp [hz2] at hex
      · simp only [hz2, if_false] at hex
        cases hex
        exact hz2 hz

/-- C1: for every calendar object and cutoff, `shouldIncludeForStartCutoff`
computes exactly the decision the claim words over the extraction outcome:
recurring events with unbounded recurrence end are included, recurring
events with a bounded end iff that end is not before the cutoff,
non-recurring events iff their non-zero end (else their non-zero start) is
not before the cutoff, and on extraction failure the non-zero modification
time is compared, defaulting to inclusion. -/
theorem claimC1_shouldInclude_matches_spec (co : CalendarObject) (cutoff : Int) :
    shouldIncludeForStartCutoff co cutoff =
      includeDecisionSpec (extractEventMetadata co.data) co.modTime cutoff := by
  cases hex : extractEventMetadata co.data with
  | error e =>
    simp only [shouldIncludeForStartCutoff, includeDecisionSpec, hex]
  | ok m =>
    simp only [shouldIncludeForStartCutoff, includeDecisionSpec, hex]
    by_cases hrec : m.recurring
    · simp only [hrec, if_true]
      by_cases hre : m.recurrenceEnd = 0
      · simp [hre]
      · by_cases hlt : m.recurrenceEnd < cutoff <;> simp [hre, hlt]
    · simp only [hrec, if_false, Bool.false_eq_true]
      by_cases hend : m.endT = 0
      · simp only [hend, ne_eq, not_true_eq_false, if_false]
        by_cases hstart : m.start = 0
        · exact absurd ⟨hstart, hend⟩
            (extract_ok_not_recurring hex (by simpa using hrec))
        · simp [hstart]
      · by_cases hlt : m.endT < cutoff <;> simp [hend, hlt]

/-- C10: `CalendarMultiget` with an empty path list returns the empty
object list and no error, independently of the report oracle (no request
is issued). -/
theorem claimC10_multiget_empty :
    ∀ report : ReportOracle, CalendarMultiget report [] = Except.ok [] ∧
      ∀ report2 : ReportOracle, CalendarMultiget report [] = CalendarMultiget report2 [] :=
  fun _ => ⟨rfl, fun _ => rfl⟩

/-- The head of `dropWhile p` does not satisfy `p`. -/
theorem head?_dropWhile_false {p : Char → Bool} :
    ∀ (l : List Char) (c : Char), (l.dropWhile p).head? = some c → p c = false := by
  intro l
  induction l with
  | nil => intro c h; simp at h
  | cons x xs ih =>
    intro c h
    by_cases hx : p x
    · rw [List.dropWhile_cons_of_pos hx] at h
      exact ih c h
    · rw [List.dropWhile_cons_of_neg hx] at h
      simp at h
      rw [← h]
      simpa using hx

/-- A stripped path never ends in a slash. -/
theorem trimTrailingSlashes_getLast {s : List Char} {c : Char}
    (h : (trimTrailingSlashes s).getLast? = some c) : (c = '/') = False := by
  have h2 : (s.reverse.dropWhile (fun c => c = '/')).head? = some c := by
    have := h
    unfold trimTrailingSlashes trimTrailing at this
    rwa [List.getLast?_reverse] at this
  have h3 := head?_dropWhile_false (p := fun c => c = '/') s.reverse c h2
  simp at h3
  simp [h3]

/-- A stripped path is never the one-character string `/`. -/
theorem trimTrailingSlashes_ne_slash (s : List Char) : trimTrailingSlashes s ≠ ['/'] := by
  intro h
  have : (trimTrailingSlashes s).getLast? = some '/' := by rw [h]; rfl
  have := trimTrailingSlashes_getLast this
  simp at this

/-- On anything but the one-character string `/`, normalization is exactly
stripping all trailing slashes. -/
theorem normalize_eq_strip {p : List Char} (h : p ≠ ['/']) :
    normalizeCollectionPath p = trimTrailingSlashes p := by
  unfold normalizeCollectionPath
  by_cases hp : p = []
  · subst hp; rfl
  · simp [hp, h, trimTrailingSlashes]

/-- Equal strings strip equally. -/
theorem strip_congr {a b : List Char} (h : a = b) :
    trimTrailingSlashes a = trimTrailingSlashes b := by rw [h]

/-- C7 counterexample: the paths `/` and `//` strip to `` and `` and are
not the excepted pair (empty vs `/`), so the claim as stated calls them
equal, but `sameCollectionPath` returns false on them. -/
theorem claimC7_counterexample :
    sameCollectionPath (goStr "/") (goStr "//") = false ∧
      c7StatedEqual (goStr "/") (goStr "//") = true := by decide

/-- C7 amended: `sameCollectionPath` returns true iff the two paths are
equal after stripping any number of trailing slashes, except that the
string `/` is equal only to itself among strings that strip to empty. -/
theorem claimC7_amended (a b : List Char) :
    sameCollectionPath a b = c7AmendedEqual a b := by
  by_cases ha : a = ['/'] <;> by_cases hb : b = ['/']
  · subst ha; subst hb; decide
  · subst ha
    have hne : (['/'] : List Char) ≠ b := fun h => hb h.symm
    have hnb : normalizeCollectionPath b = trimTrailingSlashes b := normalize_eq_strip hb
    have hslash : normalizeCollectionPath (['/'] : List Char) = ['/'] := by decide
    simp only [sameCollectionPath, c7AmendedEqual, hnb, hslash]
    have h1 : ((['/'] : List Char) == b) = false := by simpa using hne
    have h2 : ((['/'] : List Char) == trimTrailingSlashes b) = false := by
      have := trimTrailingSlashes_ne_slash b
      simp [this]
      intro hx
      exact this hx.symm
    have h3 : (b == (['/'] : List Char)) = false := by simpa using hb
    simp [h1, h2, h3]
  · subst hb
    have hna : normalizeCollectionPath a = trimTrailingSlashes a := normalize_eq_strip ha
    have hslash : normalizeCollectionPath (['/'] : List Char) = ['/'] := by decide
    simp only [sameCollectionPath, c7AmendedEqual, hna, hslash]
    have h1 : (a == (['/'] : List Char)) = false := by simpa using ha
    have h2 : (trimTrailingSlashes a == (['/'] : List Char)) = false := by
      simpa using trimTrailingSlashes_ne_slash a
    simp [h1, h2]
  · have hna : normalizeCollectionPath a = trimTrailingSlashes a := normalize_eq_strip ha
    have hnb : normalizeCollectionPath b = trimTrailingSlashes b := normalize_eq_strip hb
    have h1 : (a == (['/'] : List Char)) = false := by simpa using ha
    have h2 : (b == (['/'] : List Char)) = false := by simpa using hb
    simp only [sameCollectionPath, c7AmendedEqual, hna, hnb, h1, h2]
    by_cases hst : trimTrailingSlashes a = trimTrailingSlashes b
    · simp [hst]
    · have hne : a ≠ b := fun h => hst (strip_congr h)
      simp [hst, hne]

/-- With the width above the minimum window, the Go midpoint
`start + (end-start)/2` lies strictly between the bounds. -/
theorem mid_strictly_between {s e : Int} (h : minCalendarRangeWindow < e - s) :
    s < s + (e - s).tdiv 2 ∧ s + (e - s).tdiv 2 < e := by
  have hmc : (0 : Int) < minCalendarRangeWindow := by norm_num [minCalendarRangeWindow]
  have h2 : (0 : Int) ≤ e - s := by omega
  have h3 : (e - s).tdiv 2 = (e - s) / 2 := Int.tdiv_eq_ediv h2 (by norm_num)
  constructor <;> omega

/-- C3: the recursive bisection is a total function (so it terminates on
every window and every oracle); on an insufficient-storage (507) failure
with width above the 1-day minimum it recurses on the two halves split at
the Go midpoint, which lies strictly between the bounds; at or below the
minimum width, or on any other failure, the failure is returned
unchanged. -/
theorem claimC3_bisection_behavior (q : QueryOracle) (s e : Int) :
    (∀ code, q s e = .error (.http code) → code = statusInsufficientStorage →
      minCalendarRangeWindow < e - s →
      s < s + (e - s).tdiv 2 ∧ s + (e - s).tdiv 2 < e ∧
        calendarQueryRangeRecursive q s e =
          (match calendarQueryRangeRecursive q s (s + (e - s).tdiv 2) with
           | .error err => .error err
           | .ok left =>
             match calendarQueryRangeRecursive q (s + (e - s).tdiv 2) e with
             | .error err => .error err
             | .ok right => .ok (left ++ right))) ∧
    (∀ err, q s e = .error err → e - s ≤ minCalendarRangeWindow →
      calendarQueryRangeRecursive q s e = .error err) ∧
    (∀ code, q s e = .error (.http code) → code ≠ statusInsufficientStorage →
      calendarQueryRangeRecursive q s e = .error (.http code)) ∧
    (∀ err, q s e = .error err → (∀ code, err ≠ .http code) →
      calendarQueryRangeRecursive q s e = .error err) := by
  refine ⟨?_, ?_, ?_, ?_⟩
  · intro code hq hcode hwide
    obtain ⟨hm1, hm2⟩ := mid_strictly_between hwide
    refine ⟨hm1, hm2, ?_⟩
    rw [calendarQueryRangeRecursive]
    simp only [hq]
    rw [if_neg (by omega), if_neg (by simp [hcode]), dif_pos hm1]
  · intro err hq hnarrow
    rw [calendarQueryRangeRecursive]
    cases err with
    | http code => simp only [hq]; rw [if_pos hnarrow]
    | invalidOpen => simp only [hq]
    | invalidOrder => simp only [hq]
    | generic => simp only [hq]
  · intro code hq hcode
    rw [calendarQueryRangeRecursive]
    simp only [hq]
    by_cases hnarrow : e - s ≤ minCalendarRangeWindow
    · rw [if_pos hnarrow]
    · rw [if_neg hnarrow, if_pos hcode]
  · intro err hq hnh
    rw [calendarQueryRangeRecursive]
    cases err with
    | http code => exact absurd rfl (hnh code)
    | invalidOpen => simp only [hq]
    | invalidOrder => simp only [hq]
    | generic => simp only [hq]

/-- Witness for C3: a concrete oracle that always reports 507 on a 2-day
window splits exactly at the 1-day midpoint. -/
theorem claimC3_bisection_behavior_witness :
    ((fun _ _ => Except.error (CalErr.http 507) : QueryOracle) 0 (2 * minCalendarRangeWindow) =
        .error (.http 507)) ∧
      (0 : Int) < 0 + (2 * minCalendarRangeWindow - 0).tdiv 2 := by
  have h := (claimC3_bisection_behavior
      (fun _ _ => Except.error (CalErr.http 507)) 0 (2 * minCalendarRangeWindow)).1
      507 rfl rfl (by norm_num [minCalendarRangeWindow])
  exact ⟨rfl, h.1⟩

/-- The properties of the window walk, proven by strong induction on the
remaining width. -/
theorem rangeWindows_props :
    ∀ (n : Nat) (s e : Int), (e - s).toNat = n → s < e →
      rangeWindows s e ≠ [] ∧
      (rangeWindows s e).head?.map Prod.fst = some s ∧
      List.Chain' (fun w1 w2 => w1.2 = w2.1) (rangeWindows s e) ∧
      (∀ w ∈ rangeWindows s e, w.1 < w.2 ∧ w.2 - w.1 ≤ defaultCalendarRangeWindow) ∧
      (rangeWindows s e).getLast?.map Prod.snd = some e := by
  intro n
  induction n using Nat.strong_induction_on with
  | _ n ih =>
    intro s e hn h
    have hW : (0 : Int) < defaultCalendarRangeWindow := by norm_num [defaultCalendarRangeWindow]
    have hwe1 : s < min (s + defaultCalendarRangeWindow) e := lt_min (by omega) h
    have hwe2 : min (s + defaultCalendarRangeWindow) e ≤ e := min_le_right _ _
    have hwidth : min (s + defaultCalendarRangeWindow) e - s ≤ defaultCalendarRangeWindow := by
      have := min_le_left (s + defaultCalendarRangeWindow) e
      omega
    have hunf : rangeWindows s e =
        (s, min (s + defaultCalendarRangeWindow) e) ::
          (if min (s + defaultCalendarRangeWindow) e ≤ s then []
           else rangeWindows (min (s + defaultCalendarRangeWindow) e) e) := by
      rw [rangeWindows]
      rw [dif_pos h]
      congr 1
    rw [hunf, if_neg (by omega)]
    by_cases hlast : min (s + defaultCalendarRangeWindow) e = e
    · have hempty : rangeWindows (min (s + defaultCalendarRangeWindow) e) e = [] := by
        rw [rangeWindows, dif_neg (by omega)]
      rw [hempty]
      refine ⟨by simp, by simp, by simp, ?_, by simp [hlast]⟩
      intro w hw
      simp at hw
      subst hw
      exact ⟨hwe1, hwidth⟩
    · have hlt : min (s + defaultCalendarRangeWindow) e < e := lt_of_le_of_ne hwe2 hlast
      have hdec : (e - min (s + defaultCalendarRangeWindow) e).toNat < n := by omega
      obtain ⟨ih1, ih2, ih3, ih4, ih5⟩ :=
        ih _ hdec (min (s + defaultCalendarRangeWindow) e) e rfl hlt
      refine ⟨by simp, by simp, ?_, ?_, ?_⟩
      · rw [List.chain'_cons']
        refine ⟨?_, ih3⟩
        intro y hy
        cases hrw : (rangeWindows (min (s + defaultCalendarRangeWindow) e) e).head? with
        | none => rw [hrw] at hy; simp at hy
        | some w0 =>
          rw [hrw] at hy
          simp at hy
          rw [hrw] at ih2
          simp at ih2
          subst hy
          rw [ih2]
      · intro w hw
        rcases List.mem_cons.mp hw with hw1 | hw2
        · rw [hw1]
          exact ⟨hwe1, hwidth⟩
        · exact ih4 w hw2
      · obtain ⟨r0, rtail, hrest⟩ := List.exists_cons_of_ne_nil ih1
        rw [hrest, List.getLast?_cons_cons, ← hrest]
        exact ih5

/-- C2: for `start < end` the window walk of `calendarQueryRangeWindowed`
is non-empty, starts exactly at `start`, is contiguous (each window starts
where the previous one ended), consists of non-empty windows of width at
most the 90-day default, and ends exactly at `end`. -/
theorem claimC2_window_contiguity (s e : Int) (h : s < e) :
    rangeWindows s e ≠ [] ∧
    (rangeWindows s e).head?.map Prod.fst = some s ∧
    List.Chain' (fun w1 w2 => w1.2 = w2.1) (rangeWindows s e) ∧
    (∀ w ∈ rangeWindows s e, w.1 < w.2 ∧ w.2 - w.1 ≤ defaultCalendarRangeWindow) ∧
    (rangeWindows s e).getLast?.map Prod.snd = some e :=
  rangeWindows_props (e - s).toNat s e rfl h

/-- Witness for C2 at the concrete window `[0, 1)`. -/
theorem claimC2_window_contiguity_witness :
    (0 : Int) < 1 ∧ (rangeWindows 0 1 ≠ [] ∧
      (rangeWindows 0 1).head?.map Prod.fst = some 0 ∧
      List.Chain' (fun w1 w2 => w1.2 = w2.1) (rangeWindows 0 1) ∧
      (∀ w ∈ rangeWindows 0 1, w.1 < w.2 ∧ w.2 - w.1 ≤ defaultCalendarRangeWindow) ∧
      (rangeWindows 0 1).getLast?.map Prod.snd = some 1) :=
  ⟨by norm_num, claimC2_window_contiguity 0 1 (by norm_num)⟩

/-- The loop of `calendarQueryRangeWindowed` is exactly the processing of
its window walk: same windows, same per-window query, same merge. -/
theorem windowedLoop_eq_processWindows (q : QueryOracle) :
    ∀ (n : Nat) (c e : Int) (acc : List CalendarObject), (e - c).toNat = n →
      windowedLoop q c e acc = processWindows q (rangeWindows c e) acc := by
  intro n
  induction n using Nat.strong_induction_on with
  | _ n ih =>
    intro c e acc hn
    by_cases h : c < e
    · have hW : (0 : Int) < defaultCalendarRangeWindow := by norm_num [defaultCalendarRangeWindow]
      have hwe1 : c < min (c + defaultCalendarRangeWindow) e := lt_min (by omega) h
      have hnle : ¬ min (c + defaultCalendarRangeWindow) e ≤ c := by omega
      rw [windowedLoop, dif_pos h, rangeWindows, dif_pos h, dif_neg hnle]
      simp only [processWindows]
      cases hcr : calendarQueryRangeRecursive q c (min (c + defaultCalendarRangeWindow) e) with
      | error err => rfl
      | ok chunk =>
        dsimp only
        rw [dif_neg hnle]
        exact ih _ (by omega) _ _ _ rfl
    · rw [windowedLoop, dif_neg h, rangeWindows, dif_neg h]
      rfl

/-- Every error `calendarQueryRangeRecursive` returns was produced by the
query oracle on some window. -/
theorem calRec_error_origin (q : QueryOracle) :
    ∀ (n : Nat) (s e : Int) (err : CalErr), (e - s).toNat = n →
      calendarQueryRangeRecursive q s e = .error err → ∃ a b, q a b = .error err := by
  intro n
  induction n using Nat.strong_induction_on with
  | _ n ih =>
    intro s e err hn hres
    rw [calendarQueryRangeRecursive] at hres
    cases hq : q s e with
    | ok objs =>
      simp only [hq] at hres
      cases hres
    | error err0 =>
      simp only [hq] at hres
      cases err0 with
      | http code =>
        dsimp only at hres
        by_cases hn2 : e - s ≤ minCalendarRangeWindow
        · rw [if_pos hn2] at hres
          cases hres
          exact ⟨s, e, hq⟩
        · rw [if_neg hn2] at hres
          by_cases hc : code ≠ statusInsufficientStorage
          · rw [if_pos hc] at hres
            cases hres
            exact ⟨s, e, hq⟩
          · rw [if_neg hc] at hres
            have hmc : (0 : Int) < minCalendarRangeWindow := by norm_num [minCalendarRangeWindow]
            have h2 : (0 : Int) ≤ e - s := by omega
            have h3 : (e - s).tdiv 2 = (e - s) / 2 := Int.tdiv_eq_ediv h2 (by norm_num)
            by_cases hmid : s < s + (e - s).tdiv 2
            · rw [dif_pos hmid] at hres
              cases hl : calendarQueryRangeRecursive q s (s + (e - s).tdiv 2) with
              | error errl =>
                rw [hl] at hres
                cases hres
                exact ih _ (by omega) _ _ _ rfl hl
              | ok left =>
                rw [hl] at hres
                cases hr : calendarQueryRangeRecursive q (s + (e - s).tdiv 2) e with
                | error errr =>
                  rw [hr] at hres
                  cases hres
                  exact ih _ (by omega) _ _ _ rfl hr
                | ok right => rw [hr] at hres; cases hres
            · rw [dif_neg hmid] at hres
              cases hres
              exact ⟨s, e, hq⟩
      | invalidOpen => cases hres; exact ⟨s, e, hq⟩
      | invalidOrder => cases hres; exact ⟨s, e, hq⟩
      | generic => cases hres; exact ⟨s, e, hq⟩

/-- Every error `processWindows` returns was produced by the oracle. -/
theorem processWindows_error_origin (q : QueryOracle) :
    ∀ (ws : List (Int × Int)) (acc : List CalendarObject) (err : CalErr),
      processWindows q ws acc = .error err → ∃ a b, q a b = .error err := by
  intro ws
  induction ws with
  | nil => intro acc err h; cases h
  | cons w rest ihw =>
    intro acc err h
    simp only [processWindows] at h
    cases hcr : calendarQueryRangeRecursive q w.1 w.2 with
    | error err0 =>
      rw [hcr] at h
      cases h
      exact calRec_error_origin q _ w.1 w.2 err rfl hcr
    | ok chunk =>
      rw [hcr] at h
      exact ihw _ _ h

/-- C9: `CalendarQueryRange` rejects two zero bounds, and two set bounds
out of order, with its validation errors regardless of the oracle (no
request is issued), and in all other cases no input-validation error is
produced: every surfaced error comes from the oracle, which never produces
one. -/
theorem claimC9_range_validation (s e : Int) :
    ((s = 0 ∧ e = 0) → ∀ q : QueryOracle, CalendarQueryRange q s e = .error .invalidOpen) ∧
    ((s ≠ 0 ∧ e ≠ 0 ∧ ¬ s < e) →
      ∀ q : QueryOracle, CalendarQueryRange q s e = .error .invalidOrder) ∧
    (¬ (s = 0 ∧ e = 0) → ¬ (s ≠ 0 ∧ e ≠ 0 ∧ ¬ s < e) →
      ∀ q : QueryOracle, (∀ a b err, q a b = .error err → err.isInputValidation = false) →
        ∀ err, CalendarQueryRange q s e = .error err → err.isInputValidation = false) := by
  refine ⟨?_, ?_, ?_⟩
  · intro hz q
    rw [CalendarQueryRange, if_pos hz]
  · intro hord q
    have hz : ¬ (s = 0 ∧ e = 0) := by
      intro hc
      exact hord.1 hc.1
    rw [CalendarQueryRange, if_neg hz, if_pos hord]
  · intro hz hord q hq err hres
    rw [CalendarQueryRange, if_neg hz, if_neg hord] at hres
    by_cases hboth : s ≠ 0 ∧ e ≠ 0
    · rw [if_pos hboth] at hres
      rw [calendarQueryRangeWindowed] at hres
      rw [windowedLoop_eq_processWindows q (e - s).toNat s e [] rfl] at hres
      obtain ⟨a, b, hab⟩ := processWindows_error_origin q _ _ _ hres
      exact hq a b err hab
    · rw [if_neg hboth] at hres
      exact hq s e err hres

/-- Witness for C9: two zero bounds are rejected with the open-bounds
validation error under a trivially succeeding oracle. -/
theorem claimC9_range_validation_witness :
    CalendarQueryRange (fun _ _ => Except.ok []) 0 0 = .error .invalidOpen :=
  (claimC9_range_validation 0 0).1 ⟨rfl, rfl⟩ (fun _ _ => Except.ok [])

/-- `mergeStep` keeps paths pairwise distinct and its path set is the old
path set plus the new path. -/
theorem mergeStep_paths (st : List CalendarObject) (x : CalendarObject)
    (h : (st.map (fun o => o.path)).Nodup) :
    ((mergeStep st x).map (fun o => o.path)).Nodup ∧
    (∀ p, p ∈ (mergeStep st x).map (fun o => o.path) ↔
      p ∈ st.map (fun o => o.path) ∨ p = x.path) := by
  induction st with
  | nil => simp [mergeStep]
  | cons y rest ih =>
    simp only [List.map_cons, List.nodup_cons] at h
    by_cases hp : y.path = x.path
    · simp only [mergeStep, if_pos hp]
      constructor
      · simp only [List.map_cons, List.nodup_cons]
        refine ⟨?_, h.2⟩
        rw [← hp]
        exact h.1
      · intro p
        simp only [List.map_cons, List.mem_cons]
        constructor
        · intro hc
          rcases hc with h1 | h2
          · exact Or.inr h1
          · exact Or.inl (Or.inr h2)
        · intro hc
          rcases hc with (h1 | h2) | h3
          · rw [hp] at h1
            exact Or.inl h1
          · exact Or.inr h2
          · exact Or.inl h3
    · simp only [mergeStep, if_neg hp]
      obtain ⟨ih1, ih2⟩ := ih h.2
      constructor
      · simp only [List.map_cons, List.nodup_cons]
        refine ⟨?_, ih1⟩
        intro hc
        rcases (ih2 y.path).mp hc with h1 | h2
        · exact h.1 h1
        · exact hp h2
      · intro p
        simp only [List.map_cons, List.mem_cons]
        rw [ih2 p]
        tauto

/-- On a path-deduplicated list, every member of `mergeStep st x` is `x`
itself or an untouched member whose path differs from `x`'s. -/
theorem mergeStep_mem (st : List CalendarObject) (x : CalendarObject)
    (h : (st.map (fun o => o.path)).Nodup) :
    ∀ o ∈ mergeStep st x, o = x ∨ (o ∈ st ∧ o.path ≠ x.path) := by
  induction st with
  | nil =>
    intro o ho
    simp [mergeStep] at ho
    exact Or.inl ho
  | cons y rest ih =>
    simp only [List.map_cons, List.nodup_cons] at h
    intro o ho
    by_cases hp : y.path = x.path
    · rw [mergeStep, if_pos hp] at ho
      rcases List.mem_cons.mp ho with h1 | h2
      · exact Or.inl h1
      · refine Or.inr ⟨List.mem_cons_of_mem _ h2, ?_⟩
        intro hc
        rw [← hp] at hc
        exact h.1 (by rw [← hc]; exact List.mem_map_of_mem _ h2)
    · rw [mergeStep, if_neg hp] at ho
      rcases List.mem_cons.mp ho with h1 | h2
      · rw [h1]
        exact Or.inr ⟨List.mem_cons_self _ _, hp⟩
      · rcases ih h.2 o h2 with h3 | h4
        · exact Or.inl h3
        · exact Or.inr ⟨List.mem_cons_of_mem _ h4.1, h4.2⟩

/-- The invariant of the merge loop: paths are pairwise distinct, each
entry is the last occurrence of its path among the consumed input, and
every consumed path is represented. -/
def MergeInv (st seen : List CalendarObject) : Prop :=
  ((st.map (fun o => o.path)).Nodup) ∧
  (∀ o ∈ st, seen.reverse.find? (fun z => z.path == o.path) = some o) ∧
  (∀ z ∈ seen, ∃ o ∈ st, o.path = z.path)

/-- One merge step preserves the invariant. -/
theorem mergeInv_step {st seen : List CalendarObject} (x : CalendarObject)
    (h : MergeInv st seen) : MergeInv (mergeStep st x) (seen ++ [x]) := by
  obtain ⟨h1, h2, h3⟩ := h
  obtain ⟨hn, hiff⟩ := mergeStep_paths st x h1
  refine ⟨hn, ?_, ?_⟩
  · intro o ho
    rw [List.reverse_append]
    simp only [List.reverse_cons, List.reverse_nil, List.nil_append, List.cons_append,
      List.nil_append]
    rcases mergeStep_mem st x h1 o ho with hx | ⟨hmem, hne⟩
    · rw [hx, List.find?_cons_of_pos _ (by simp)]
    · rw [List.find?_cons_of_neg _ (by simp; intro hc; exact hne hc.symm)]
      exact h2 o hmem
  · intro z hz
    rcases List.mem_append.mp hz with h4 | h5
    · obtain ⟨o, ho, hop⟩ := h3 z h4
      have : o.path ∈ (mergeStep st x).map (fun o => o.path) ∨ True := Or.inr trivial
      by_cases hpx : o.path = x.path
      · have hxmem : x.path ∈ (mergeStep st x).map (fun o => o.path) :=
          (hiff x.path).mpr (Or.inr rfl)
        obtain ⟨o2, ho2, ho2p⟩ := List.mem_map.mp hxmem
        exact ⟨o2, ho2, by rw [ho2p, ← hpx, hop]⟩
      · have homem : o.path ∈ (mergeStep st x).map (fun o => o.path) :=
          (hiff o.path).mpr (Or.inl (List.mem_map_of_mem _ ho))
        obtain ⟨o2, ho2, ho2p⟩ := List.mem_map.mp homem
        exact ⟨o2, ho2, by rw [ho2p, hop]⟩
    · have hzx : z = x := by simpa using h5
      have hxmem : x.path ∈ (mergeStep st x).map (fun o => o.path) :=
        (hiff x.path).mpr (Or.inr rfl)
      obtain ⟨o2, ho2, ho2p⟩ := List.mem_map.mp hxmem
      exact ⟨o2, ho2, by rw [ho2p, hzx]⟩

/-- The merge loop over a whole input list preserves the invariant. -/
theorem mergeInv_foldl :
    ∀ (l st seen : List CalendarObject), MergeInv st seen →
      MergeInv (l.foldl mergeStep st) (seen ++ l) := by
  intro l
  induction l with
  | nil => intro st seen h; simpa using h
  | cons x xs ih =>
    intro st seen h
    have h2 := ih (mergeStep st x) (seen ++ [x]) (mergeInv_step x h)
    simpa using h2

/-- `mergeChunks` is the plain fold of the concatenated chunks. -/
theorem mergeChunks_eq_flatten :
    ∀ (chunks : List (List CalendarObject)) (st : List CalendarObject),
      chunks.foldl (fun st c => c.foldl mergeStep st) st = chunks.flatten.foldl mergeStep st := by
  intro chunks
  induction chunks with
  | nil => intro st; rfl
  | cons c cs ih =>
    intro st
    rw [List.flatten_cons, List.foldl_append, List.foldl_cons]
    exact ih (c.foldl mergeStep st)

/-- C6: for every sequence of per-window chunks, the merged list the
windowed range query accumulates has pairwise distinct paths; each entry
is exactly the last-processed occurrence of its path in the concatenated
input (a later occurrence replaces the earlier entry instead of being
appended); and every input path is represented. -/
theorem claimC6_merge_dedup (chunks : List (List CalendarObject)) :
    ((mergeChunks chunks).map (fun o => o.path)).Nodup ∧
    (∀ o ∈ mergeChunks chunks,
      chunks.flatten.reverse.find? (fun z => z.path == o.path) = some o) ∧
    (∀ z ∈ chunks.flatten, ∃ o ∈ mergeChunks chunks, o.path = z.path) := by
  have hbase : MergeInv [] [] := ⟨by simp, by simp, by simp⟩
  have h := mergeInv_foldl chunks.flatten [] [] hbase
  rw [List.nil_append] at h
  rw [mergeChunks, mergeChunks_eq_flatten]
  exact h

/-- Witness for C6: two windows return objects with the same path; the
merged result keeps a single entry, the last-processed one. -/
theorem claimC6_merge_dedup_witness :
    ((mergeChunks [[sampleObjA], [sampleObjB]]).map (fun o => o.path)).Nodup ∧
    [[sampleObjA], [sampleObjB]].flatten.reverse.find?
      (fun z => z.path == sampleObjB.path) = some sampleObjB :=
  ⟨(claimC6_merge_dedup [[sampleObjA], [sampleObjB]]).1,
    (claimC6_merge_dedup [[sampleObjA], [sampleObjB]]).2.1 sampleObjB (by decide)⟩

/-- With a zero cutoff the per-entry processing of `SyncCalendar` is the
plain classification. -/
theorem syncProcessEntry_zero (colPath : List Char) (acc : SyncAccum) (entry : SyncEntry) :
    syncProcessEntry colPath 0 acc entry = classifyStep colPath acc entry := by
  simp [syncProcessEntry, classifyStep]

/-- With a zero cutoff the response loop of `SyncCalendar` is the plain
classification loop. -/
theorem syncFold_zero (colPath : List Char) :
    ∀ (entries : List SyncEntry) (acc : SyncAccum),
      syncFold colPath 0 entries acc = classifyFold colPath entries acc := by
  intro entries
  induction entries with
  | nil => intro acc; rfl
  | cons entry rest ih =>
    intro acc
    rw [syncFold, classifyFold, syncProcessEntry_zero]
    cases hc : classifyStep colPath acc entry with
    | error err => rfl
    | ok acc2 => exact ih acc2

/-- C5: with a non-empty sync token, `SyncCalendar` ignores the start-time
cutoff entirely: two queries differing only in their start time produce
the same response, and that response is the unfiltered classification
result. -/
theorem claimC5_token_suppresses_cutoff (mg : MultigetOracle) (path : List Char)
    (ms : SyncMultiStatus) (lim : Int) (tok : List Char) (st1 st2 : Int)
    (h : tok ≠ []) :
    syncCalendar mg path ms ⟨tok, lim, st1⟩ = syncCalendar mg path ms ⟨tok, lim, st2⟩ ∧
    syncCalendar mg path ms ⟨tok, lim, st1⟩ = classifySync path ms := by
  suffices hs : ∀ st : Int, syncCalendar mg path ms ⟨tok, lim, st⟩ = classifySync path ms by
    exact ⟨(hs st1).trans (hs st2).symm, hs st1⟩
  intro st
  have hcond : ¬ (tok = [] ∧ st ≠ 0) := by simp [h]
  simp only [syncCalendar, if_neg hcond]
  rw [syncFold_zero]
  cases hcf : classifyFold path ms.responses initSyncAccum with
  | error err => simp [classifySync, hcf]
  | ok acc => simp [classifySync, hcf]

/-- Witness for C5 at a concrete non-empty token, empty response list and
trivial multiget oracle. -/
theorem claimC5_token_suppresses_cutoff_witness :
    syncCalendar (fun _ => Except.ok []) (goStr "/cal/") ⟨goStr "tok", []⟩
        ⟨goStr "t1", 0, 5⟩ =
      syncCalendar (fun _ => Except.ok []) (goStr "/cal/") ⟨goStr "tok", []⟩
        ⟨goStr "t1", 0, 99⟩ :=
  (claimC5_token_suppresses_cutoff (fun _ => Except.ok []) (goStr "/cal/")
    ⟨goStr "tok", []⟩ 0 (goStr "t1") 5 99 (by decide)).1

/-- `dropCR` does nothing when the string does not end in a carriage
return. -/
theorem dropCR_noop {s : List Char} (h : s.getLast? ≠ some '\r') : dropCR s = s := by
  rw [dropCR, if_neg h]

/-- `trimTrailing` does nothing when the last character does not match. -/
theorem trimTrailing_noop {p : Char → Bool} {s : List Char}
    (h : ∀ c, s.getLast? = some c → p c = false) : trimTrailing p s = s := by
  unfold trimTrailing
  cases hr : s.reverse with
  | nil =>
    have : s = [] := by simpa using congrArg List.reverse hr
    simp [this]
  | cons c t =>
    have hlast : s.getLast? = some c := by
      rw [← List.head?_reverse, hr]
      rfl
    rw [List.dropWhile_cons_of_neg (by simp [h c hlast])]
    rw [← hr, List.reverse_reverse]

/-- The scanner emits the text before a newline as one token. -/
theorem scanLinesAux_append (b : List Char) :
    ∀ (a cur : List Char), '\n' ∉ a →
      scanLinesAux cur (a ++ '\n' :: b) =
        dropCR (cur.reverse ++ a) :: scanLinesAux [] b := by
  intro a
  induction a with
  | nil =>
    intro cur h
    simp [scanLinesAux]
  | cons c a2 ih =>
    intro cur h
    rw [List.cons_append]
    have hc : ¬ c = '\n' := by
      intro hc
      exact h (by rw [hc]; exact List.mem_cons_self _ _)
    rw [scanLinesAux, if_neg hc]
    rw [ih (c :: cur) (fun hm => h (List.mem_cons_of_mem _ hm))]
    congr 1
    congr 1
    simp

/-- The scanner emits a trailing newline-free remainder as one token. -/
theorem scanLinesAux_terminal :
    ∀ (a cur : List Char), '\n' ∉ a → cur.reverse ++ a ≠ [] →
      scanLinesAux cur a = [dropCR (cur.reverse ++ a)] := by
  intro a
  induction a with
  | nil =>
    intro cur h hne
    have hcur : ¬ cur.isEmpty = true := by
      simp only [List.append_nil] at hne
      simp [List.isEmpty_iff]
      intro hc
      exact hne (by simp [hc])
    rw [scanLinesAux, if_neg hcur]
    simp
  | cons c a2 ih =>
    intro cur h hne
    have hc : ¬ c = '\n' := by
      intro hc
      exact h (by rw [hc]; exact List.mem_cons_self _ _)
    rw [scanLinesAux, if_neg hc]
    rw [ih (c :: cur) (fun hm => h (List.mem_cons_of_mem _ hm)) (by simp)]
    congr 2
    simp

/-- The physical lines of a folded logical line are its segments with the
inserted whitespace character re-attached. -/
theorem scanLines_foldSegs :
    ∀ (conts : List (Char × List Char)) (s0 : List Char),
      s0 ≠ [] → '\n' ∉ s0 → s0.getLast? ≠ some '\r' →
      (∀ p ∈ conts, (p.1 = ' ' ∨ p.1 = '\t') ∧ '\n' ∉ p.2 ∧ p.2.getLast? ≠ some '\r') →
      scanLines (foldSegs s0 conts) = s0 :: conts.map (fun p => p.1 :: p.2) := by
  intro conts
  induction conts with
  | nil =>
    intro s0 hne hnl hcr hall
    rw [foldSegs, scanLines]
    rw [scanLinesAux_terminal s0 [] hnl (by simpa using hne)]
    simp [dropCR_noop hcr]
  | cons p rest ih =>
    intro s0 hne hnl hcr hall
    rw [foldSegs, scanLines]
    rw [scanLinesAux_append _ s0 [] hnl]
    simp only [List.reverse_nil, List.nil_append]
    rw [dropCR_noop hcr]
    have hp := hall p (List.mem_cons_self _ _)
    have hrest : ∀ p2 ∈ rest, (p2.1 = ' ' ∨ p2.1 = '\t') ∧ '\n' ∉ p2.2 ∧
        p2.2.getLast? ≠ some '\r' :=
      fun p2 hm => hall p2 (List.mem_cons_of_mem _ hm)
    have hh1 : (p.1 :: p.2) ≠ [] := by simp
    have hh2 : '\n' ∉ (p.1 :: p.2) := by
      intro hm
      rcases List.mem_cons.mp hm with h1 | h2
      · rcases hp.1 with hsp | hsp <;> rw [hsp] at h1 <;> cases h1
      · exact hp.2.1 h2
    have hh3 : (p.1 :: p.2).getLast? ≠ some '\r' := by
      cases hp2 : p.2 with
      | nil =>
        simp only [hp2, List.getLast?_singleton]
        rcases hp.1 with hsp | hsp <;> rw [hsp] <;> decide
      | cons c2 t2 =>
        rw [List.getLast?_cons_cons]
        rw [← hp2]
        exact hp.2.2
    have := ih (p.1 :: p.2) hh1 hh2 hh3 hrest
    rw [scanLines] at this
    rw [this]
    rfl

/-- A segment that does not begin with space or tab survives
`dropWhile`. -/
theorem dropWhile_headNotWsTab {s : List Char} (h : headNotWsTab s = true) :
    s.dropWhile (fun c => c = ' ' || c = '\t') = s := by
  cases s with
  | nil => rfl
  | cons c t =>
    rw [List.dropWhile_cons_of_neg]
    simp only [headNotWsTab, Bool.not_eq_true'] at h
    simp [h]

/-- A line that does not begin with space or tab fails both continuation
tests. -/
theorem hasPre_ws_false {s : List Char} (h : headNotWsTab s = true) :
    (hasPre [' '] s || hasPre ['\t'] s) = false := by
  cases s with
  | nil => rfl
  | cons c t =>
    have h2 : ¬ (c = ' ' ∨ c = '\t') := by
      simpa [headNotWsTab] using h
    have hb1 : ((' ' : Char) == c) = false :=
      beq_eq_false_iff_ne.mpr (fun hx => h2 (Or.inl hx.symm))
    have hb2 : (('\t' : Char) == c) = false :=
      beq_eq_false_iff_ne.mpr (fun hx => h2 (Or.inr hx.symm))
    show ((' ' == c && hasPre [] t) || ('\t' == c && hasPre [] t)) = false
    rw [hb1, hb2]
    rfl

/-- The unfold loop turns the continuation lines back into the
concatenated segments. -/
theorem unfoldLoop_conts :
    ∀ (conts : List (Char × List Char)) (acc : List (List Char)) (cur : List Char),
      cur ≠ [] →
      (∀ p ∈ conts, (p.1 = ' ' ∨ p.1 = '\t') ∧ headNotWsTab p.2 = true ∧
        p.2.getLast? ≠ some '\r') →
      unfoldLoop acc cur (conts.map (fun p => p.1 :: p.2)) =
        acc ++ [cur ++ (conts.map Prod.snd).flatten] := by
  intro conts
  induction conts with
  | nil =>
    intro acc cur hne hall
    simp [unfoldLoop, hne]
  | cons p rest ih =>
    intro acc cur hne hall
    have hp := hall p (List.mem_cons_self _ _)
    have hrest : ∀ p2 ∈ rest, (p2.1 = ' ' ∨ p2.1 = '\t') ∧ headNotWsTab p2.2 = true ∧
        p2.2.getLast? ≠ some '\r' :=
      fun p2 hm => hall p2 (List.mem_cons_of_mem _ hm)
    rw [List.map_cons, unfoldLoop]
    have htrim : trimTrailing (fun c => c = '\r') (p.1 :: p.2) = p.1 :: p.2 := by
      apply trimTrailing_noop
      intro c hc
      cases hp2 : p.2 with
      | nil =>
        rw [hp2] at hc
        simp only [List.getLast?_singleton, Option.some.injEq] at hc
        rw [← hc]
        rcases hp.1 with hsp | hsp <;> rw [hsp] <;> decide
      | cons c2 t2 =>
        rw [hp2] at hc
        rw [List.getLast?_cons_cons, ← hp2] at hc
        have h2 := hp.2.2
        rw [hc] at h2
        have : ¬ c = '\r' := by
          intro hcc
          exact h2 (by rw [hcc])
        simp [this]
    rw [htrim]
    have hws : (hasPre [' '] (p.1 :: p.2) || hasPre ['\t'] (p.1 :: p.2)) = true := by
      show ((' ' == p.1 && hasPre [] p.2) || ('\t' == p.1 && hasPre [] p.2)) = true
      rcases hp.1 with hsp | hsp <;> rw [hsp] <;> rfl
    rw [if_pos hws]
    have hdrop : (p.1 :: p.2).dropWhile (fun c => c = ' ' || c = '\t') = p.2 := by
      rw [List.dropWhile_cons_of_pos]
      · exact dropWhile_headNotWsTab hp.2.1
      · rcases hp.1 with hsp | hsp <;> rw [hsp] <;> decide
    rw [hdrop]
    rw [ih acc (cur ++ p.2) (by intro hc; exact hne (List.append_eq_nil.mp hc).1) hrest]
    simp

/-- C4 counterexample: folding the logical line `A B` as `A` plus the
continuation ` B` (one inserted space before a segment that itself starts
with a space) does not round-trip: the unfolder strips both leading
whitespace characters and reconstructs `AB`. -/
theorem claimC4_counterexample :
    unfoldICSLines (foldSegs (goStr "A") [(' ', goStr " B")]) ≠
      [goStr "A" ++ ([(' ', goStr " B")].map Prod.snd).flatten] := by decide

/-- C4 amended: for every logical content line split into segments and
folded with a single inserted space or tab per break, the unfolder
reconstructs exactly the original line, provided the line does not itself
begin with space or tab, no break is placed directly before a space or
tab, and the segments contain no newline and no line-final carriage
return. -/
theorem claimC4_unfolding_round_trip (s0 : List Char) (conts : List (Char × List Char))
    (h0 : s0 ≠ []) (h1 : headNotWsTab s0 = true) (h2 : segOk s0 = true)
    (h3 : ∀ p ∈ conts, contOk p = true) :
    unfoldICSLines (foldSegs s0 conts) = [s0 ++ (conts.map Prod.snd).flatten] := by
  have h2a : '\n' ∉ s0 ∧ s0.getLast? ≠ some '\r' := by
    simpa [segOk] using h2
  have h3a : ∀ p ∈ conts, (p.1 = ' ' ∨ p.1 = '\t') ∧ '\n' ∉ p.2 ∧
      p.2.getLast? ≠ some '\r' := by
    intro p hp
    have hc := h3 p hp
    simp only [contOk, Bool.and_eq_true] at hc
    obtain ⟨⟨hws, hhead⟩, hseg⟩ := hc
    have hseg2 : '\n' ∉ p.2 ∧ p.2.getLast? ≠ some '\r' := by simpa [segOk] using hseg
    exact ⟨by simpa using hws, hseg2.1, hseg2.2⟩
  have h3b : ∀ p ∈ conts, (p.1 = ' ' ∨ p.1 = '\t') ∧ headNotWsTab p.2 = true ∧
      p.2.getLast? ≠ some '\r' := by
    intro p hp
    have hc := h3 p hp
    simp only [contOk, Bool.and_eq_true] at hc
    obtain ⟨⟨hws, hhead⟩, hseg⟩ := hc
    have hseg2 : '\n' ∉ p.2 ∧ p.2.getLast? ≠ some '\r' := by simpa [segOk] using hseg
    exact ⟨by simpa using hws, hhead, hseg2.2⟩
  rw [unfoldICSLines, scanLines_foldSegs conts s0 h0 h2a.1 h2a.2 h3a]
  rw [unfoldLoop]
  have htrim : trimTrailing (fun c => c = '\r') s0 = s0 := by
    apply trimTrailing_noop
    intro c hc
    have h4 := h2a.2
    rw [hc] at h4
    have : ¬ c = '\r' := by
      intro hcc
      exact h4 (by rw [hcc])
    simp [this]
  rw [htrim, if_neg (by rw [hasPre_ws_false h1]; simp)]
  rw [if_neg (by simp)]
  exact unfoldLoop_conts conts [] s0 h0 h3b

/-- Witness for C4 at the concrete fold `AB` + `CD`. -/
theorem claimC4_unfolding_round_trip_witness :
    unfoldICSLines (foldSegs (goStr "AB") [(' ', goStr "CD")]) =
      [goStr "AB" ++ ([(' ', goStr "CD")].map Prod.snd).flatten] :=
  claimC4_unfolding_round_trip (goStr "AB") [(' ', goStr "CD")] (by decide) (by decide)
    (by decide) (by decide)

/-- A line whose upper-casing starts with `DTSTART` does not start with
`DTEND` (they differ at the third character). -/
theorem hasPre_DTSTART_not_DTEND {u : List Char} (h : hasPre kwDTSTART u = true) :
    hasPre kwDTEND u = false := by
  rcases u with _ | ⟨c0, u⟩
  · simp [kwDTSTART, hasPre] at h
  rcases u with _ | ⟨c1, u⟩
  · simp [kwDTSTART, hasPre] at h
  rcases u with _ | ⟨c2, u⟩
  · simp [kwDTSTART, hasPre] at h
  simp only [kwDTSTART, hasPre, Bool.and_eq_true, beq_iff_eq] at h
  obtain ⟨h0, h1, h2, hr⟩ := h
  simp [kwDTEND, hasPre, ← h2]

/-- A line whose upper-casing starts with `DTSTART` does not start with
`RRULE`. -/
theorem hasPre_DTSTART_not_RRULE {u : List Char} (h : hasPre kwDTSTART u = true) :
    hasPre kwRRULE u = false := by
  rcases u with _ | ⟨c0, u⟩
  · simp [kwDTSTART, hasPre] at h
  simp only [kwDTSTART, hasPre, Bool.and_eq_true, beq_iff_eq] at h
  simp [kwRRULE, hasPre, ← h.1]

/-- A line whose upper-casing starts with `DTEND` does not start with
`RRULE`. -/
theorem hasPre_DTEND_not_RRULE {u : List Char} (h : hasPre kwDTEND u = true) :
    hasPre kwRRULE u = false := by
  rcases u with _ | ⟨c0, u⟩
  · simp [kwDTEND, hasPre] at h
  simp only [kwDTEND, hasPre, Bool.and_eq_true, beq_iff_eq] at h
  simp [kwRRULE, hasPre, ← h.1]

/-- The `RRULE` component loop only touches the recurrence-end fields. -/
theorem applyRRuleParts_fields :
    ∀ (parts : List (List Char)) (m : EventMetadata),
      (parts.foldl applyRRulePart m).start = m.start ∧
      (parts.foldl applyRRulePart m).endT = m.endT ∧
      (parts.foldl applyRRulePart m).recurring = m.recurring := by
  intro parts
  induction parts with
  | nil => intro m; exact ⟨rfl, rfl, rfl⟩
  | cons part rest ih =>
    intro m
    rw [List.foldl_cons]
    have hstep : (applyRRulePart m part).start = m.start ∧
        (applyRRulePart m part).endT = m.endT ∧
        (applyRRulePart m part).recurring = m.recurring := by
      unfold applyRRulePart
      cases idxOfCh '=' part with
      | none => exact ⟨rfl, rfl, rfl⟩
      | some i =>
        dsimp only
        by_cases hk : upperStr (trimSpaceGo (part.take i)) = kwUNTIL
        · rw [if_pos hk]
          cases parseICSTime (trimSpaceGo (part.drop (i + 1))) with
          | some t => exact ⟨rfl, rfl, rfl⟩
          | none => exact ⟨rfl, rfl, rfl⟩
        · rw [if_neg hk]
          by_cases hc : upperStr (trimSpaceGo (part.take i)) = kwCOUNT
          · rw [if_pos hc]
            by_cases ha : atoiOk (trimSpaceGo (part.drop (i + 1))) = true
            · rw [if_pos ha]
              exact ⟨rfl, rfl, rfl⟩
            · rw [if_neg ha]
              exact ⟨rfl, rfl, rfl⟩
          · rw [if_neg hc]
            exact ⟨rfl, rfl, rfl⟩
    obtain ⟨ih1, ih2, ih3⟩ := ih (applyRRulePart m part)
    rw [ih1, ih2, ih3, hstep.1, hstep.2.1, hstep.2.2]
    exact ⟨rfl, rfl, rfl⟩

/-- One step of the per-property folds. -/
theorem lastParsedWith_cons (kw l : List Char) (sel : List (List Char)) (init : Int) :
    lastParsedWith kw (l :: sel) init =
      lastParsedWith kw sel
        (if isPropLine kw l then
          match parseICSTime (extractICSValue l) with
          | some t => t
          | none => init
         else init) := rfl

/-- The single scan of `extractEventMetadata` computes, field by field,
the same start / end / recurrence data as three independent per-property
passes over the VEVENT-region lines: the last successfully parsed
`DTSTART` and `DTEND`, and whether any `RRULE` with a non-empty value was
seen. -/
theorem extractFold_components :
    ∀ (lines : List (List Char)) (inE : Bool) (m : EventMetadata),
      (lines.foldl extractStep ⟨inE, m⟩).meta.start =
        lastParsedWith kwDTSTART (veventSelect inE lines) m.start ∧
      (lines.foldl extractStep ⟨inE, m⟩).meta.endT =
        lastParsedWith kwDTEND (veventSelect inE lines) m.endT ∧
      (lines.foldl extractStep ⟨inE, m⟩).meta.recurring =
        (m.recurring || (veventSelect inE lines).any isRRuleLine) := by
  intro lines
  induction lines with
  | nil =>
    intro inE m
    simp [veventSelect, lastParsedWith]
  | cons l rest ih =>
    intro inE m
    rw [List.foldl_cons]
    by_cases hb : eqFold l kwBeginVevent
    · have hstep : extractStep ⟨inE, m⟩ l = ⟨true, m⟩ := by
        rw [extractStep, if_pos hb]
      rw [hstep, veventSelect, if_pos hb]
      exact ih true m
    · by_cases he : eqFold l kwEndVevent
      · have hstep : extractStep ⟨inE, m⟩ l = ⟨false, m⟩ := by
          rw [extractStep, if_neg hb, if_pos he]
        rw [hstep, veventSelect, if_neg hb, if_pos he]
        exact ih false m
      · cases hin : inE with
        | false =>
          have hstep : extractStep ⟨false, m⟩ l = ⟨false, m⟩ := by
            rw [extractStep, if_neg hb, if_neg he]
            rfl
          rw [hstep, veventSelect, if_neg hb, if_neg he]
          simpa using ih false m
        | true =>
          rw [veventSelect, if_neg hb, if_neg he]
          simp only [if_true]
          by_cases hds : hasPre kwDTSTART (upperStr l) = true
          · have hnde : isPropLine kwDTEND l = false := by
              simp [isPropLine, hasPre_DTSTART_not_DTEND hds]
            have hnrr : isRRuleLine l = false := by
              simp [isRRuleLine, hasPre_DTSTART_not_RRULE hds]
            by_cases hv : extractICSValue l = []
            · have hstep : extractStep ⟨true, m⟩ l = ⟨true, m⟩ := by
                rw [extractStep, if_neg hb, if_neg he]
                simp only [Bool.not_true, Bool.false_eq_true, if_false]
                rw [if_pos hds, if_pos hv]
              rw [hstep]
              obtain ⟨ih1, ih2, ih3⟩ := ih true m
              rw [lastParsedWith_cons, lastParsedWith_cons, List.any_cons]
              have hps : isPropLine kwDTSTART l = false := by
                simp [isPropLine, hv]
              rw [hnrr, hps, hnde]
              simpa using ⟨ih1, ih2, ih3⟩
            · have hps : isPropLine kwDTSTART l = true := by
                simp [isPropLine, hds, hv]
              cases hparse : parseICSTime (extractICSValue l) with
              | some t =>
                have hstep : extractStep ⟨true, m⟩ l = ⟨true, { m with start := t }⟩ := by
                  rw [extractStep, if_neg hb, if_neg he]
                  simp only [Bool.not_true, Bool.false_eq_true, if_false]
                  rw [if_pos hds, if_neg hv, hparse]
                rw [hstep]
                obtain ⟨ih1, ih2, ih3⟩ := ih true { m with start := t }
                rw [lastParsedWith_cons, lastParsedWith_cons, List.any_cons]
                rw [hnrr, hps, hnde, hparse]
                simpa using ⟨ih1, ih2, ih3⟩
              | none =>
                have hstep : extractStep ⟨true, m⟩ l = ⟨true, m⟩ := by
                  rw [extractStep, if_neg hb, if_neg he]
                  simp only [Bool.not_true, Bool.false_eq_true, if_false]
                  rw [if_pos hds, if_neg hv, hparse]
                rw [hstep]
                obtain ⟨ih1, ih2, ih3⟩ := ih true m
                rw [lastParsedWith_cons, lastParsedWith_cons, List.any_cons]
                rw [hnrr, hps, hnde, hparse]
                simpa using ⟨ih1, ih2, ih3⟩
          · by_cases hde : hasPre kwDTEND (upperStr l) = true
            · have hnds : isPropLine kwDTSTART l = false := by
                simp [isPropLine, hds]
              have hnrr : isRRuleLine l = false := by
                simp [isRRuleLine, hasPre_DTEND_not_RRULE hde]
              by_cases hv : extractICSValue l = []
              · have hstep : extractStep ⟨true, m⟩ l = ⟨true, m⟩ := by
                  rw [extractStep, if_neg hb, if_neg he]
                  simp only [Bool.not_true, Bool.false_eq_true, if_false]
                  rw [if_neg hds, if_pos hde, if_pos hv]
                rw [hstep]
                obtain ⟨ih1, ih2, ih3⟩ := ih true m
                rw [lastParsedWith_cons, lastParsedWith_cons, List.any_cons]
                have hpe : isPropLine kwDTEND l = false := by
                  simp [isPropLine, hv]
                rw [hnrr, hnds, hpe]
                simpa using ⟨ih1, ih2, ih3⟩
              · have hpe : isPropLine kwDTEND l = true := by
                  simp [isPropLine, hde, hv]
                cases hparse : parseICSTime (extractICSValue l) with
                | some t =>
                  have hstep : extractStep ⟨true, m⟩ l = ⟨true, { m with endT := t }⟩ := by
                    rw [extractStep, if_neg hb, if_neg he]
                    simp only [Bool.not_true, Bool.false_eq_true, if_false]
                    rw [if_neg hds, if_pos hde, if_neg hv, hparse]
                  rw [hstep]
                  obtain ⟨ih1, ih2, ih3⟩ := ih true { m with endT := t }
                  rw [lastParsedWith_cons, lastParsedWith_cons, List.any_cons]
                  rw [hnrr, hnds, hpe, hparse]
                  simpa using ⟨ih1, ih2, ih3⟩
                | none =>
                  have hstep : extractStep ⟨true, m⟩ l = ⟨true, m⟩ := by
                    rw [extractStep, if_neg hb, if_neg he]
                    simp only [Bool.not_true, Bool.false_eq_true, if_false]
                    rw [if_neg hds, if_pos hde, if_neg hv, hparse]
                  rw [hstep]
                  obtain ⟨ih1, ih2, ih3⟩ := ih true m
                  rw [lastParsedWith_cons, lastParsedWith_cons, List.any_cons]
                  rw [hnrr, hnds, hpe, hparse]
                  simpa using ⟨ih1, ih2, ih3⟩
            · have hnds : isPropLine kwDTSTART l = false := by
                simp [isPropLine, hds]
              have hnde : isPropLine kwDTEND l = false := by
                simp [isPropLine, hde]
              by_cases hrr : hasPre kwRRULE (upperStr l) = true
              · by_cases hv : extractICSValue l = []
                · have hstep : extractStep ⟨true, m⟩ l = ⟨true, m⟩ := by
                    rw [extractStep, if_neg hb, if_neg he]
                    simp only [Bool.not_true, Bool.false_eq_true, if_false]
                    rw [if_neg hds, if_neg hde, if_pos hrr, if_pos hv]
                  rw [hstep]
                  obtain ⟨ih1, ih2, ih3⟩ := ih true m
                  rw [lastParsedWith_cons, lastParsedWith_cons, List.any_cons]
                  have hnrr : isRRuleLine l = false := by
                    simp [isRRuleLine, hv]
                  rw [hnrr, hnds, hnde]
                  simpa using ⟨ih1, ih2, ih3⟩
                · have hstep : extractStep ⟨true, m⟩ l =
                      ⟨true, (splitOnCh ';' (extractICSValue l)).foldl applyRRulePart
                        { m with recurring := true, recurrenceOpen := true }⟩ := by
                    rw [extractStep, if_neg hb, if_neg he]
                    simp only [Bool.not_true, Bool.false_eq_true, if_false]
                    rw [if_neg hds, if_neg hde, if_pos hrr, if_neg hv]
                  rw [hstep]
                  obtain ⟨hf1, hf2, hf3⟩ := applyRRuleParts_fields
                    (splitOnCh ';' (extractICSValue l))
                    { m with recurring := true, recurrenceOpen := true }
                  obtain ⟨ih1, ih2, ih3⟩ := ih true
                    ((splitOnCh ';' (extractICSValue l)).foldl applyRRulePart
                      { m with recurring := true, recurrenceOpen := true })
                  rw [lastParsedWith_cons, lastParsedWith_cons, List.any_cons]
                  have hprr : isRRuleLine l = true := by
                    simp [isRRuleLine, hrr, hv]
                  rw [hprr, hnds, hnde]
                  refine ⟨?_, ?_, ?_⟩
                  · rw [ih1, hf1]
                    simp
                  · rw [ih2, hf2]
                    simp
                  · rw [ih3, hf3]
                    simp
              · have hstep : extractStep ⟨true, m⟩ l = ⟨true, m⟩ := by
                  rw [extractStep, if_neg hb, if_neg he]
                  simp only [Bool.not_true, Bool.false_eq_true, if_false]
                  rw [if_neg hds, if_neg hde, if_neg hrr]
                rw [hstep]
                obtain ⟨ih1, ih2, ih3⟩ := ih true m
                rw [lastParsedWith_cons, lastParsedWith_cons, List.any_cons]
                have hnrr : isRRuleLine l = false := by
                  simp [isRRuleLine, hrr]
                rw [hnrr, hnds, hnde]
                simpa using ⟨ih1, ih2, ih3⟩

/-- C8 amended: `extractEventMetadata` fails exactly when the payload is
empty, or no `RRULE` with a non-empty value is recognized inside any
VEVENT block and neither the `DTSTART` nor the `DTEND` property retains a
usable parsed value there (the last successfully parsed value wins, and a
value parsing to Go's zero time counts as absent).  In particular an
extraction with a recognized `RRULE` always succeeds. -/
theorem claimC8_extract_failure (data : List Char) :
    extractEventMetadata data = Except.error () ↔
      (data = [] ∨ (specRecurring data = false ∧ specLastStart data = 0 ∧
        specLastEnd data = 0)) := by
  by_cases hd : data = []
  · simp [extractEventMetadata, hd]
  · obtain ⟨h1, h2, h3⟩ :=
      extractFold_components (unfoldICSLines (normalizeCRLF data)) false initMeta
    have hrec_eq :
        (List.foldl extractStep ⟨false, initMeta⟩
          (unfoldICSLines (normalizeCRLF data))).meta.recurring = specRecurring data := by
      rw [h3]
      simp [initMeta, specRecurring, logicalLines]
    have hstart_eq :
        (List.foldl extractStep ⟨false, initMeta⟩
          (unfoldICSLines (normalizeCRLF data))).meta.start = specLastStart data := by
      rw [h1]
      rfl
    have hend_eq :
        (List.foldl extractStep ⟨false, initMeta⟩
          (unfoldICSLines (normalizeCRLF data))).meta.endT = specLastEnd data := by
      rw [h2]
      rfl
    simp only [extractEventMetadata, if_neg hd]
    simp only [hrec_eq, hstart_eq, hend_eq]
    by_cases hrec : specRecurring data = true
    · rw [if_pos hrec]
      constructor
      · intro hcontra
        cases hcontra
      · intro hc
        rcases hc with h4 | ⟨h5, _, _⟩
        · exact absurd h4 hd
        · rw [hrec] at h5
          cases h5
    · have hrecF : specRecurring data = false := by
        simpa using hrec
      rw [if_neg hrec]
      by_cases hz : specLastStart data = 0 ∧ specLastEnd data = 0
      · rw [if_pos hz]
        constructor
        · intro _
          exact Or.inr ⟨hrecF, hz.1, hz.2⟩
        · intro _
          rfl
      · rw [if_neg hz]
        constructor
        · intro hcontra
          cases hcontra
        · intro hc
          rcases hc with h4 | ⟨_, h5, h6⟩
          · exact absurd h4 hd
          · exact absurd ⟨h5, h6⟩ hz

/-- C8 counterexample: a payload whose first VEVENT block is empty but
whose second VEVENT block carries a parseable `DTSTART` satisfies the
claim's stated failure condition (nothing found in the first block) yet
the extractor succeeds: it scans every VEVENT block, not only the
first. -/
theorem claimC8_counterexample :
    c8StatedFailure (goStr
        "BEGIN:VEVENT\nEND:VEVENT\nBEGIN:VEVENT\nDTSTART:20230401T000000Z\nEND:VEVENT") = true ∧
      extractSucceeds (goStr
        "BEGIN:VEVENT\nEND:VEVENT\nBEGIN:VEVENT\nDTSTART:20230401T000000Z\nEND:VEVENT") = true := by
  decide
